import Mathlib

/-!
# Pipe: a three-stage integer pipeline

A shallow embedding of `pipeline.go`: the two stateless filter stages, the
ring-backed buffering stage and the loop in `main` that chains stages.

* A channel of `int` is the finite list of the values sent on it before it is
  closed.
* The goroutine of a filter stage is its `for num := range input` loop, a
  recursion over the input list that carries the values sent so far.
* A `container/ring` ring made by `ring.New` is the list of the `Value` fields
  of its nodes, in link order from the node `ring.New` returned; a `*Ring` is
  that list together with the index of the designated node, and the nil
  `*Ring` is `none`.
* The goroutine of the buffering stage is a state machine. Which case of its
  `select` fires in each iteration is not decided by the program, so it is an
  argument: the schedule, a list of `Select` choices.
* Every send on an output channel is taken to complete (its reader receives),
  and log lines are left out.
-/

namespace Pipe

/-! ## Filter stages -/

/-- Body of the goroutine of `NegativeFilterStage.Process`: `rest` is what is
still to be received from `input`, `output` what has been sent so far. -/
def NegativeFilterStage.loop : List Int → List Int → List Int
  | [], output => output
  | num :: rest, output =>
    if num ≥ 0 then NegativeFilterStage.loop rest (output ++ [num])
    else NegativeFilterStage.loop rest output

/-- The values `NegativeFilterStage.Process` sends on its output channel. -/
def NegativeFilterStage.Process (input : List Int) : List Int :=
  NegativeFilterStage.loop input []

/-- Body of the goroutine of `SpecialFilterStage.Process`; `num%3` is Go's
truncated remainder, `Int.tmod`. -/
def SpecialFilterStage.loop : List Int → List Int → List Int
  | [], output => output
  | num :: rest, output =>
    if num ≠ 0 ∧ Int.tmod num 3 = 0 then SpecialFilterStage.loop rest (output ++ [num])
    else SpecialFilterStage.loop rest output

/-- The values `SpecialFilterStage.Process` sends on its output channel. -/
def SpecialFilterStage.Process (input : List Int) : List Int :=
  SpecialFilterStage.loop input []

/-! ## The ring of `container/ring` -/

/-- A non-nil `*ring.Ring`: the `Value` of every node of the ring (`none` is
the nil interface value) and the index of the node the pointer designates. -/
structure Ring where
  slots : List (Option Int)
  cur : Nat
  inBounds : cur < slots.length

/-- `ring.New(n)`: nil for `n <= 0`, otherwise `n` linked nodes with nil
values and a pointer to the first of them. -/
def Ring.New (n : Int) : Option Ring :=
  if h : n ≤ 0 then none
  else some ⟨List.replicate n.toNat none, 0, by simp only [List.length_replicate]; omega⟩

/-- The `next` link of node `p`: `ring.New` links node `i` to node `i + 1` and
the last node back to the first. -/
def Ring.succ (r : Ring) (p : Nat) : Nat :=
  if p + 1 < r.slots.length then p + 1 else 0

/-- The `Value` field of node `p`. -/
def Ring.valueAt (r : Ring) (p : Nat) : Option Int :=
  (r.slots[p]?).getD none

/-- `r.Next()`: the same ring, designated by its next node. -/
def Ring.Next (r : Ring) : Ring :=
  ⟨r.slots, r.succ r.cur, by
    unfold Ring.succ
    have := r.inBounds
    split <;> omega⟩

/-- `r.Value = num`: store into the designated node. -/
def Ring.setValue (r : Ring) (num : Int) : Ring :=
  ⟨r.slots.set r.cur (some num), r.cur, by
    rw [List.length_set]
    exact r.inBounds⟩

/-- The loop `for p := r.Next(); p != r; p = p.next { f(p.Value) }` of
`Ring.Do`, with `acc` the state the callback has built so far. `none` means
the iteration bound was used up before the loop came back to `r`. -/
def Ring.doLoop {σ : Type} (r : Ring) (f : σ → Option Int → σ) : Nat → Nat → σ → Option σ
  | 0, _, _ => none
  | fuel + 1, p, acc =>
    if p = r.cur then some acc
    else Ring.doLoop r f fuel (r.succ p) (f acc (r.valueAt p))

/-- `r.Do(f)` on a non-nil ring: `f(r.Value)`, then the loop over the other
nodes. The loop needs one test per node, so the bound is the ring length. -/
def Ring.Do {σ : Type} (r : Ring) (f : σ → Option Int → σ) (init : σ) : Option σ :=
  r.doLoop f r.slots.length (r.succ r.cur) (f init (r.valueAt r.cur))

/-- `r.Do(f)` on a possibly nil `*Ring`: nothing is called on nil. -/
def ringDo {σ : Type} (b : Option Ring) (f : σ → Option Int → σ) (init : σ) : Option σ :=
  match b with
  | none => some init
  | some r => r.Do f init

/-! ## The buffering stage -/

/-- The stage value: `BufferStage{buffer: ...}`. -/
structure BufferStage where
  buffer : Option Ring

/-- `NewBufferStage(size)`. -/
def NewBufferStage (size : Int) : BufferStage :=
  ⟨Ring.New size⟩

/-- The callback passed to `Do` at a tick, as a function of the values sent so
far: a non-nil value is sent on `output`, a nil one is skipped. -/
def emit (output : List Int) (value : Option Int) : List Int :=
  match value with
  | some v => output ++ [v]
  | none => output

/-- Which case of the `select` fires in one iteration of the loop. -/
inductive Select where
  | recv
  | tick
  deriving DecidableEq, Repr

/-- How far the goroutine of the buffering stage has come: still in its loop;
returned (the deferred `close(output)` has run); stopped by the nil-pointer
dereference `s.buffer.Value = num` on a nil ring; or inside a `Do` that does
not come back. -/
inductive Status where
  | running
  | returned
  | panicked
  | diverged
  deriving DecidableEq, Repr

/-- State of the goroutine of `BufferStage.Process`: the field `s.buffer`,
what is still to be received from `input`, what has been sent on `output`. -/
structure BufState where
  buffer : Option Ring
  input : List Int
  output : List Int
  status : Status

/-- One iteration of `for { select { ... } }`. -/
def BufferStage.step (st : BufState) (c : Select) : BufState :=
  match st.status with
  | Status.running =>
    match c with
    | Select.recv =>
      match st.input with
      | [] => { st with status := Status.returned }
      | num :: rest =>
        match st.buffer with
        | none => { st with input := rest, status := Status.panicked }
        | some r => { st with buffer := some (r.setValue num).Next, input := rest }
    | Select.tick =>
      match ringDo st.buffer emit st.output with
      | some output => { st with output := output }
      | none => { st with status := Status.diverged }
  | _ => st

/-- The loop of the goroutine along a schedule. -/
def BufferStage.loop : BufState → List Select → BufState
  | st, [] => st
  | st, c :: cs => BufferStage.loop (BufferStage.step st c) cs

/-- The goroutine started by `s.Process(input)`, run along `sched`. -/
def BufferStage.run (s : BufferStage) (sched : List Select) (input : List Int) : BufState :=
  BufferStage.loop ⟨s.buffer, input, [], Status.running⟩ sched

/-- The values `s.Process(input)` sends on its output channel along `sched`. -/
def BufferStage.Process (s : BufferStage) (sched : List Select) (input : List Int) : List Int :=
  (BufferStage.run s sched input).output

/-! ## Chaining stages -/

/-- The interface `Stage`, over the type `α` of channels. -/
structure Stage (α : Type) where
  Process : α → α

/-- The loop `for _, stage := range stages { pipeline = stage.Process(pipeline) }`
of `main`, started with `pipeline`. -/
def chainStages {α : Type} : List (Stage α) → α → α
  | [], pipeline => pipeline
  | stage :: rest, pipeline => chainStages rest (stage.Process pipeline)

/-- The constant `bufferSize`. -/
def bufferSize : Int := 10

/-- The stage list of `main`, with the schedule of the buffering goroutine and
the buffer size (`bufferSize` in `main`) as arguments. -/
def stages (size : Int) (sched : List Select) : List (Stage (List Int)) :=
  [⟨NegativeFilterStage.Process⟩, ⟨SpecialFilterStage.Process⟩,
   ⟨BufferStage.Process (NewBufferStage size) sched⟩]

/-- The nodes of the ring in link order from the designated node: the nodes
`cur, ..., n - 1` and then `0, ..., cur - 1`. -/
def Ring.view (r : Ring) : List (Option Int) :=
  r.slots.drop r.cur ++ r.slots.take r.cur

/-- One arrival: `s.buffer.Value = num; s.buffer = s.buffer.Next()`. -/
def Ring.push (r : Ring) (num : Int) : Ring :=
  (r.setValue num).Next

/-- The values one tick sends when the field `s.buffer` is `b`: what `Do` with
the callback of the tick case sends, starting from nothing sent. -/
def BufferStage.drain (b : Option Ring) : List Int :=
  (ringDo b emit []).getD []

/-- The positions of the ticks in a schedule. -/
def tickPositions (sched : List Select) : List Nat :=
  (List.range sched.length).filter (fun i => decide (sched[i]? = some Select.tick))

/-- A goroutine state in the middle of a run: capacity 2, three arrivals
`1, 2, 3` so far, nothing sent yet. -/
def sampleState : BufState :=
  ⟨some ⟨[some 3, some 2], 1, by decide⟩, [4], [], Status.running⟩

/-! ## Filter stages: what the loops compute -/

theorem NegativeFilterStage.negLoop_eq (input output : List Int) :
    NegativeFilterStage.loop input output
      = output ++ input.filter (fun v => decide (v ≥ 0)) := by
  induction input generalizing output with
  | nil => simp [NegativeFilterStage.loop]
  | cons num rest ih =>
    by_cases h : num ≥ 0
    · simp [NegativeFilterStage.loop, h, ih]
    · simp [NegativeFilterStage.loop, h, ih]

theorem SpecialFilterStage.specLoop_eq (input output : List Int) :
    SpecialFilterStage.loop input output
      = output ++ input.filter (fun v => decide (v ≠ 0 ∧ Int.tmod v 3 = 0)) := by
  induction input generalizing output with
  | nil => simp [SpecialFilterStage.loop]
  | cons num rest ih =>
    by_cases h : num ≠ 0 ∧ Int.tmod num 3 = 0
    · rw [SpecialFilterStage.loop, if_pos h, ih, List.filter_cons_of_pos (by simpa using h)]
      simp
    · rw [SpecialFilterStage.loop, if_neg h, ih, List.filter_cons_of_neg (by simpa using h)]

theorem NegativeFilterStage.negProcess_eq (input : List Int) :
    NegativeFilterStage.Process input = input.filter (fun v => decide (v ≥ 0)) := by
  simp [NegativeFilterStage.Process, NegativeFilterStage.negLoop_eq]

theorem SpecialFilterStage.specProcess_eq (input : List Int) :
    SpecialFilterStage.Process input
      = input.filter (fun v => decide (v ≠ 0 ∧ Int.tmod v 3 = 0)) := by
  simp [SpecialFilterStage.Process, SpecialFilterStage.specLoop_eq]

/-- Go's truncated remainder by 3 vanishes exactly when the mathematical
(floored, Euclidean) remainder does. -/
theorem tmod_three_eq_zero_iff (v : Int) : Int.tmod v 3 = 0 ↔ v % 3 = 0 := by
  constructor
  · intro h
    exact Int.emod_eq_zero_of_dvd (Int.dvd_of_tmod_eq_zero h)
  · intro h
    exact Int.tmod_eq_zero_of_dvd (Int.dvd_of_emod_eq_zero h)

/-- C1: the output of the negative filter is the subsequence of the input
values `v ≥ 0`, unmodified and in input order; so a value is in the output
exactly when it is in the input and is not negative. -/
theorem negativeFilter_output (input : List Int) :
    NegativeFilterStage.Process input = input.filter (fun v => decide (v ≥ 0)) ∧
    List.Sublist (NegativeFilterStage.Process input) input ∧
    (∀ v : Int, v ∈ NegativeFilterStage.Process input ↔ v ∈ input ∧ v ≥ 0) ∧
    (∀ v : Int, v < 0 → v ∉ NegativeFilterStage.Process input) := by
  have h : NegativeFilterStage.Process input = input.filter (fun v => decide (v ≥ 0)) := by
    simp [NegativeFilterStage.Process, NegativeFilterStage.negLoop_eq]
  refine ⟨h, ?_, ?_, ?_⟩
  · rw [h]
    exact List.filter_sublist input
  · intro v
    rw [h]
    simp
  · intro v hv
    rw [h]
    simp
    intro _
    omega

/-- C2: the output of the special filter is the subsequence of the input
values that pass `num != 0 && num%3 == 0` (truncated remainder), in input
order; a value of the input is in the output exactly when it is not zero and
its remainder by 3, truncated or mathematical, is zero. -/
theorem specialFilter_output (input : List Int) :
    SpecialFilterStage.Process input
      = input.filter (fun v => decide (v ≠ 0 ∧ Int.tmod v 3 = 0)) ∧
    List.Sublist (SpecialFilterStage.Process input) input ∧
    (∀ v : Int, v ∈ SpecialFilterStage.Process input ↔
      v ∈ input ∧ v ≠ 0 ∧ Int.tmod v 3 = 0) ∧
    (∀ v : Int, v ∈ SpecialFilterStage.Process input ↔ v ∈ input ∧ v ≠ 0 ∧ v % 3 = 0) := by
  have h : SpecialFilterStage.Process input
      = input.filter (fun v => decide (v ≠ 0 ∧ Int.tmod v 3 = 0)) := by
    simp [SpecialFilterStage.Process, SpecialFilterStage.specLoop_eq]
  have hmem : ∀ v : Int, v ∈ SpecialFilterStage.Process input ↔
      v ∈ input ∧ v ≠ 0 ∧ Int.tmod v 3 = 0 := by
    intro v
    rw [h, List.mem_filter]
    simp
  refine ⟨h, ?_, hmem, ?_⟩
  · rw [h]
    exact List.filter_sublist input
  · intro v
    rw [hmem v, tmod_three_eq_zero_iff]

/-- C5: the chaining loop of `main` is the left fold of `Process` over the
stage list: the empty list returns the source stream, and appending a stage
`s` applies `s.Process` to the stream made by the stages before it. -/
theorem chainStages_eq_foldl {α : Type} (ss : List (Stage α)) (src : α) :
    chainStages ss src = ss.foldl (fun pipeline stage => stage.Process pipeline) src ∧
    chainStages ([] : List (Stage α)) src = src ∧
    (∀ s : Stage α, chainStages (ss ++ [s]) src = s.Process (chainStages ss src)) := by
  refine ⟨?_, rfl, ?_⟩
  · induction ss generalizing src with
    | nil => rfl
    | cons s rest ih => simpa [chainStages] using ih (s.Process src)
  · intro s
    induction ss generalizing src with
    | nil => rfl
    | cons t rest ih => simpa [chainStages] using ih (t.Process src)

/-! ## The ring: what `Do` visits -/

theorem Ring.valueAt_of_lt (r : Ring) (p : Nat) (h : p < r.slots.length) :
    r.valueAt p = r.slots[p] := by
  simp [Ring.valueAt, List.getElem?_eq_getElem h]

/-- From a node at or before the designated one, the loop of `Do` visits the
nodes up to the designated one and stops there. -/
theorem Ring.doLoop_low {σ : Type} (r : Ring) (f : σ → Option Int → σ) (k : Nat) :
    ∀ (fuel p : Nat) (acc : σ), p + k = r.cur → k + 1 ≤ fuel →
      r.doLoop f fuel p acc = some (((r.slots.take r.cur).drop p).foldl f acc) := by
  induction k with
  | zero =>
    intro fuel p acc hp hfuel
    obtain ⟨fuel, rfl⟩ : ∃ m, fuel = m + 1 := ⟨fuel - 1, by omega⟩
    have hpc : p = r.cur := by omega
    have hnil : (r.slots.take r.cur).drop p = [] := by
      apply List.drop_eq_nil_of_le
      rw [List.length_take]
      omega
    rw [Ring.doLoop, if_pos hpc, hnil, List.foldl_nil]
  | succ k ih =>
    intro fuel p acc hp hfuel
    obtain ⟨fuel, rfl⟩ : ∃ m, fuel = m + 1 := ⟨fuel - 1, by omega⟩
    have hb := r.inBounds
    have hne : p ≠ r.cur := by omega
    have hlt : p < r.slots.length := by omega
    have hsucc : r.succ p = p + 1 := by
      unfold Ring.succ
      rw [if_pos (by omega)]
    have hlen : p < (r.slots.take r.cur).length := by
      rw [List.length_take]
      omega
    rw [Ring.doLoop, if_neg hne, hsucc, ih fuel (p + 1) _ (by omega) (by omega),
      List.drop_eq_getElem_cons hlen, List.foldl_cons, Ring.valueAt_of_lt r p hlt,
      List.getElem_take]

/-- From a node after the designated one, the loop of `Do` visits the nodes up
to the last one, wraps around to the first and stops at the designated one. -/
theorem Ring.doLoop_high {σ : Type} (r : Ring) (f : σ → Option Int → σ) (k : Nat) :
    ∀ (fuel p : Nat) (acc : σ), r.cur < p → p + k + 1 = r.slots.length →
      k + 1 + r.cur + 1 ≤ fuel →
      r.doLoop f fuel p acc = some ((r.slots.drop p ++ r.slots.take r.cur).foldl f acc) := by
  induction k with
  | zero =>
    intro fuel p acc hcp hp hfuel
    obtain ⟨fuel, rfl⟩ : ∃ m, fuel = m + 1 := ⟨fuel - 1, by omega⟩
    have hne : p ≠ r.cur := by omega
    have hlt : p < r.slots.length := by omega
    have hsucc : r.succ p = 0 := by
      unfold Ring.succ
      rw [if_neg (by omega)]
    have hlast : r.slots.drop (p + 1) = [] := List.drop_eq_nil_of_le (by omega)
    rw [Ring.doLoop, if_neg hne, hsucc,
      Ring.doLoop_low r f r.cur fuel 0 _ (by omega) (by omega),
      List.drop_eq_getElem_cons hlt, hlast, Ring.valueAt_of_lt r p hlt]
    simp only [List.drop_zero, List.cons_append, List.nil_append, List.foldl_cons]
  | succ k ih =>
    intro fuel p acc hcp hp hfuel
    obtain ⟨fuel, rfl⟩ : ∃ m, fuel = m + 1 := ⟨fuel - 1, by omega⟩
    have hne : p ≠ r.cur := by omega
    have hlt : p < r.slots.length := by omega
    have hsucc : r.succ p = p + 1 := by
      unfold Ring.succ
      rw [if_pos (by omega)]
    rw [Ring.doLoop, if_neg hne, hsucc, ih fuel (p + 1) _ (by omega) (by omega) (by omega),
      List.drop_eq_getElem_cons hlt, Ring.valueAt_of_lt r p hlt]
    simp only [List.cons_append, List.foldl_cons]

/-- `Do` returns, having called `f` on every node once, from the designated
node on in link order. -/
theorem Ring.Do_eq {σ : Type} (r : Ring) (f : σ → Option Int → σ) (init : σ) :
    r.Do f init = some (r.view.foldl f init) := by
  have hb := r.inBounds
  unfold Ring.Do Ring.view
  rw [List.drop_eq_getElem_cons hb, Ring.valueAt_of_lt r r.cur hb]
  by_cases h : r.cur + 1 < r.slots.length
  · have hsucc : r.succ r.cur = r.cur + 1 := by
      unfold Ring.succ
      rw [if_pos h]
    rw [hsucc, Ring.doLoop_high r f (r.slots.length - r.cur - 2) _ (r.cur + 1) _
      (by omega) (by omega) (by omega)]
    simp only [List.cons_append, List.foldl_cons]
  · have hsucc : r.succ r.cur = 0 := by
      unfold Ring.succ
      rw [if_neg h]
    have hlast : r.slots.drop (r.cur + 1) = [] := List.drop_eq_nil_of_le (by omega)
    rw [hsucc, Ring.doLoop_low r f r.cur _ 0 _ (by omega) (by omega), hlast]
    simp only [List.drop_zero, List.cons_append, List.nil_append, List.foldl_cons]

theorem foldl_emit (l : List (Option Int)) (output : List Int) :
    l.foldl emit output = output ++ l.filterMap id := by
  induction l generalizing output with
  | nil => simp
  | cons a l ih =>
    cases a with
    | none => simp [emit, ih]
    | some v => simp [emit, ih]

/-- A tick on a non-nil ring sends the non-nil values of the ring, from the
designated node on in link order. -/
theorem ringDo_emit_some (r : Ring) (output : List Int) :
    ringDo (some r) emit output = some (output ++ r.view.filterMap id) := by
  simp [ringDo, Ring.Do_eq, foldl_emit]

/-! ## The ring: arrivals -/

theorem split_at_index {β : Type} (l : List β) (c : Nat) (hc : c < l.length) :
    ∃ (A : List β) (a : β) (B : List β), l = A ++ a :: B ∧ A.length = c := by
  refine ⟨l.take c, l[c], l.drop (c + 1), ?_, ?_⟩
  · rw [← List.drop_eq_getElem_cons hc, List.take_append_drop]
  · rw [List.length_take]
    omega

/-- Storing at index `c` and moving to the next index, cyclically, drops the
head of the list read from `c` and appends the stored value. -/
theorem set_then_advance {β : Type} (l : List β) (c : Nat) (x : β) (hc : c < l.length) :
    (l.set c x).drop (if c + 1 < l.length then c + 1 else 0)
        ++ (l.set c x).take (if c + 1 < l.length then c + 1 else 0)
      = (l.drop c ++ l.take c).tail ++ [x] := by
  obtain ⟨A, a, B, rfl, rfl⟩ := split_at_index l c hc
  have hset : (A ++ a :: B).set A.length x = A ++ x :: B := by simp
  rw [hset, List.drop_left, List.take_left]
  cases B with
  | nil => simp
  | cons b B =>
    have h1 : A.length + 1 < (A ++ a :: b :: B).length := by simp
    rw [if_pos h1]
    have e1 : A ++ x :: b :: B = (A ++ [x]) ++ (b :: B) := by simp
    have e2 : A.length + 1 = (A ++ [x]).length := by simp
    rw [e1, e2, List.drop_left, List.take_left]
    simp

theorem Ring.length_view (r : Ring) : r.view.length = r.slots.length := by
  have hb := r.inBounds
  simp only [Ring.view, List.length_append, List.length_drop, List.length_take]
  omega

theorem Ring.view_ne_nil (r : Ring) : r.view ≠ [] := by
  intro h
  have hl := r.length_view
  have hb := r.inBounds
  rw [h] at hl
  simp only [List.length_nil] at hl
  omega

theorem Ring.length_push (r : Ring) (num : Int) :
    (r.push num).slots.length = r.slots.length := by
  simp [Ring.push, Ring.Next, Ring.setValue]

/-- An arrival drops the oldest node of the view and appends the new value. -/
theorem Ring.view_push (r : Ring) (num : Int) :
    (r.push num).view = r.view.tail ++ [some num] := by
  have h := set_then_advance r.slots r.cur (some num) r.inBounds
  simpa [Ring.view, Ring.push, Ring.Next, Ring.setValue, Ring.succ] using h

theorem Ring.length_foldl_push (vs : List Int) (r : Ring) :
    (vs.foldl Ring.push r).slots.length = r.slots.length := by
  induction vs generalizing r with
  | nil => rfl
  | cons v vs ih => rw [List.foldl_cons, ih, Ring.length_push]

/-- After the arrivals `vs` the view is the old view followed by `vs`, cut to
its last `n` entries. -/
theorem Ring.view_foldl_push (vs : List Int) (r : Ring) :
    (vs.foldl Ring.push r).view = (r.view ++ vs.map some).drop vs.length := by
  induction vs generalizing r with
  | nil => simp
  | cons v vs ih =>
    rw [List.foldl_cons, ih, Ring.view_push]
    have hne := r.view_ne_nil
    cases hv : r.view with
    | nil => exact absurd hv hne
    | cons a t => simp

theorem filterMap_drop_pad (n : Nat) (vs : List Int) :
    ((List.replicate n (none : Option Int) ++ vs.map some).drop vs.length).filterMap id
      = vs.drop (vs.length - n) := by
  by_cases h : vs.length ≤ n
  · rw [List.drop_append_of_le_length (by simpa using h)]
    simp [Nat.sub_eq_zero_of_le h]
  · have e : vs.length = (List.replicate n (none : Option Int)).length + (vs.length - n) := by
      simp only [List.length_replicate]
      omega
    conv_lhs => rw [e]
    rw [List.drop_append]
    simp [← List.map_drop]

/-- `ring.New(n)` for `n ≥ 1`: `n` nil nodes, designated by the first. -/
theorem Ring.New_pos (n : Nat) (hn : 1 ≤ n) :
    ∃ r : Ring, Ring.New (n : Int) = some r ∧ r.slots = List.replicate n none ∧ r.cur = 0 := by
  have h : ¬ ((n : Int) ≤ 0) := by omega
  refine ⟨⟨List.replicate n none, 0, by simp only [List.length_replicate]; omega⟩, ?_, rfl, rfl⟩
  simp [Ring.New, h]

theorem Ring.New_nonpos (n : Int) (hn : n ≤ 0) : Ring.New n = none := by
  simp [Ring.New, hn]

/-! ## The buffering goroutine -/

theorem BufferStage.loop_append (st : BufState) (a b : List Select) :
    BufferStage.loop st (a ++ b) = BufferStage.loop (BufferStage.loop st a) b := by
  induction a generalizing st with
  | nil => rfl
  | cons c a ih => simpa [BufferStage.loop] using ih (BufferStage.step st c)

/-- A run of receptions while input is pending: every value is stored and the
pointer advanced; nothing is sent. -/
theorem BufferStage.loop_recv (vs : List Int) :
    ∀ (r : Ring) (rest output : List Int),
      BufferStage.loop ⟨some r, vs ++ rest, output, Status.running⟩
          (List.replicate vs.length Select.recv)
        = ⟨some (vs.foldl Ring.push r), rest, output, Status.running⟩ := by
  induction vs with
  | nil => intro r rest output; rfl
  | cons v vs ih =>
    intro r rest output
    simpa [BufferStage.loop, BufferStage.step, List.replicate_succ, Ring.push]
      using ih (r.push v) rest output

/-- A tick while the goroutine is in its loop, on a non-nil ring. -/
theorem BufferStage.step_tick_some (r : Ring) (input output : List Int) :
    BufferStage.step ⟨some r, input, output, Status.running⟩ Select.tick
      = ⟨some r, input, output ++ r.view.filterMap id, Status.running⟩ := by
  simp [BufferStage.step, ringDo_emit_some]

/-- A tick on the nil ring sends nothing. -/
theorem BufferStage.step_tick_none (input output : List Int) :
    BufferStage.step ⟨none, input, output, Status.running⟩ Select.tick
      = ⟨none, input, output, Status.running⟩ := by
  simp [BufferStage.step, ringDo]

/-- Fresh buffer of capacity `n ≥ 1`, the arrivals `vs`, then one tick: the
goroutine is still in its loop and has sent the last `n` of `vs`. -/
theorem BufferStage.run_arrivals_then_tick (n : Nat) (hn : 1 ≤ n) (vs rest : List Int) :
    ∃ r : Ring,
      BufferStage.run (NewBufferStage (n : Int))
          (List.replicate vs.length Select.recv ++ [Select.tick]) (vs ++ rest)
        = ⟨some r, rest, vs.drop (vs.length - n), Status.running⟩ ∧
      r.view.filterMap id = vs.drop (vs.length - n) ∧ r.slots.length = n := by
  obtain ⟨r0, hnew, hslots, hcur⟩ := Ring.New_pos n hn
  have hview0 : r0.view = List.replicate n none := by
    simp [Ring.view, hslots, hcur]
  have hview : (vs.foldl Ring.push r0).view.filterMap id = vs.drop (vs.length - n) := by
    rw [Ring.view_foldl_push, hview0, filterMap_drop_pad]
  refine ⟨vs.foldl Ring.push r0, ?_, hview, ?_⟩
  · rw [BufferStage.run, NewBufferStage, hnew, BufferStage.loop_append, BufferStage.loop_recv,
      BufferStage.loop, BufferStage.loop, BufferStage.step_tick_some, hview, List.nil_append]
  · rw [Ring.length_foldl_push, hslots, List.length_replicate]

/-! ## The buffering stage: claims -/

/-- C3: round trip. A fresh buffer of capacity `n ≥ 1` receives exactly `n`
distinct values `vs` with no tick in between; the next tick sends exactly
`vs`, each value once, in insertion order (and the goroutine stays in its
loop, with `rest` still to be received). -/
theorem buffer_round_trip (n : Nat) (hn : 1 ≤ n) (vs rest : List Int)
    (hlen : vs.length = n) (hnd : vs.Nodup) :
    BufferStage.Process (NewBufferStage (n : Int))
        (List.replicate n Select.recv ++ [Select.tick]) (vs ++ rest) = vs ∧
    (∀ v ∈ vs, List.count v (BufferStage.Process (NewBufferStage (n : Int))
        (List.replicate n Select.recv ++ [Select.tick]) (vs ++ rest)) = 1) ∧
    (BufferStage.run (NewBufferStage (n : Int))
        (List.replicate n Select.recv ++ [Select.tick]) (vs ++ rest)).status
      = Status.running := by
  obtain ⟨r, hrun, -, -⟩ := BufferStage.run_arrivals_then_tick n hn vs rest
  rw [hlen] at hrun
  have hout : BufferStage.Process (NewBufferStage (n : Int))
      (List.replicate n Select.recv ++ [Select.tick]) (vs ++ rest) = vs := by
    rw [BufferStage.Process, hrun]
    simp
  refine ⟨hout, ?_, ?_⟩
  · intro v hv
    rw [hout]
    exact List.count_eq_one_of_mem hnd hv
  · rw [hrun]

theorem buffer_round_trip_witness :
    BufferStage.Process (NewBufferStage ((3 : Nat) : Int))
        (List.replicate 3 Select.recv ++ [Select.tick]) ([7, 8, 9] ++ [10]) = [7, 8, 9] ∧
    (∀ v ∈ [7, 8, 9], List.count v (BufferStage.Process (NewBufferStage ((3 : Nat) : Int))
        (List.replicate 3 Select.recv ++ [Select.tick]) ([7, 8, 9] ++ [10])) = 1) ∧
    (BufferStage.run (NewBufferStage ((3 : Nat) : Int))
        (List.replicate 3 Select.recv ++ [Select.tick]) ([7, 8, 9] ++ [10])).status
      = Status.running :=
  buffer_round_trip 3 (by decide) [7, 8, 9] [10] (by decide) (by decide)

/-- C4: overwrite. A fresh buffer of capacity `n ≥ 1` receives `n + 1`
distinct values, `first` and then `later`, before any tick; the next tick
sends exactly `n` values, namely `later` in order: `first` is absent from them
and the last arrived value is present. -/
theorem buffer_overwrite (n : Nat) (hn : 1 ≤ n) (first : Int) (later rest : List Int)
    (hlen : later.length = n) (hnd : (first :: later).Nodup) :
    (BufferStage.Process (NewBufferStage (n : Int))
        (List.replicate (n + 1) Select.recv ++ [Select.tick])
        (first :: later ++ rest)).length = n ∧
    first ∉ BufferStage.Process (NewBufferStage (n : Int))
        (List.replicate (n + 1) Select.recv ++ [Select.tick]) (first :: later ++ rest) ∧
    (first :: later).getLast (List.cons_ne_nil first later) ∈
      BufferStage.Process (NewBufferStage (n : Int))
        (List.replicate (n + 1) Select.recv ++ [Select.tick]) (first :: later ++ rest) ∧
    BufferStage.Process (NewBufferStage (n : Int))
        (List.replicate (n + 1) Select.recv ++ [Select.tick]) (first :: later ++ rest)
      = later := by
  obtain ⟨r, hrun, -, -⟩ := BufferStage.run_arrivals_then_tick n hn (first :: later) rest
  have hout : BufferStage.Process (NewBufferStage (n : Int))
      (List.replicate (n + 1) Select.recv ++ [Select.tick]) (first :: later ++ rest)
        = later := by
    rw [BufferStage.Process]
    rw [List.length_cons, hlen] at hrun
    rw [hrun]
    simp
  have hne : later ≠ [] := by
    intro h
    rw [h] at hlen
    simp only [List.length_nil] at hlen
    omega
  refine ⟨?_, ?_, ?_, hout⟩
  · rw [hout, hlen]
  · rw [hout]
    exact (List.nodup_cons.mp hnd).1
  · rw [hout, List.getLast_cons hne]
    exact List.getLast_mem hne

theorem buffer_overwrite_witness :
    (BufferStage.Process (NewBufferStage ((2 : Nat) : Int))
        (List.replicate (2 + 1) Select.recv ++ [Select.tick])
        (1 :: [2, 3] ++ [])).length = 2 ∧
    1 ∉ BufferStage.Process (NewBufferStage ((2 : Nat) : Int))
        (List.replicate (2 + 1) Select.recv ++ [Select.tick]) (1 :: [2, 3] ++ []) ∧
    (1 :: [2, 3]).getLast (List.cons_ne_nil 1 [2, 3]) ∈
      BufferStage.Process (NewBufferStage ((2 : Nat) : Int))
        (List.replicate (2 + 1) Select.recv ++ [Select.tick]) (1 :: [2, 3] ++ []) ∧
    BufferStage.Process (NewBufferStage ((2 : Nat) : Int))
        (List.replicate (2 + 1) Select.recv ++ [Select.tick]) (1 :: [2, 3] ++ [])
      = [2, 3] :=
  buffer_overwrite 2 (by decide) 1 [2, 3] [] (by decide) (by decide)

/-- C9: drain order. After the arrivals `vs` (any number) into a fresh buffer
of capacity `n ≥ 1`, a tick sends the non-nil value of every node once,
walking the ring from the designated node, and what it sends is the last
`min vs.length n` values of `vs`, oldest first. -/
theorem drain_emits_last_arrivals (n : Nat) (hn : 1 ≤ n) (vs rest : List Int) :
    BufferStage.Process (NewBufferStage (n : Int))
        (List.replicate vs.length Select.recv ++ [Select.tick]) (vs ++ rest)
      = vs.drop (vs.length - min vs.length n) ∧
    (BufferStage.Process (NewBufferStage (n : Int))
        (List.replicate vs.length Select.recv ++ [Select.tick]) (vs ++ rest)).length
      = min vs.length n ∧
    ∃ r : Ring,
      (BufferStage.run (NewBufferStage (n : Int))
        (List.replicate vs.length Select.recv ++ [Select.tick]) (vs ++ rest)).buffer
        = some r ∧
      r.slots.length = n ∧
      BufferStage.Process (NewBufferStage (n : Int))
          (List.replicate vs.length Select.recv ++ [Select.tick]) (vs ++ rest)
        = (r.slots.drop r.cur ++ r.slots.take r.cur).filterMap id := by
  obtain ⟨r, hrun, hview, hlen⟩ := BufferStage.run_arrivals_then_tick n hn vs rest
  have hk : vs.length - min vs.length n = vs.length - n := by omega
  rw [BufferStage.Process, hrun, hk]
  refine ⟨rfl, ?_, r, rfl, hlen, ?_⟩
  · simp only [List.length_drop]
    omega
  · exact hview.symm

theorem drain_emits_last_arrivals_witness :
    1 ≤ 3 ∧
    BufferStage.Process (NewBufferStage ((3 : Nat) : Int))
        (List.replicate [1, 2, 3, 4, 5].length Select.recv ++ [Select.tick])
        ([1, 2, 3, 4, 5] ++ [])
      = [3, 4, 5] :=
  ⟨by decide, (drain_emits_last_arrivals 3 (by decide) [1, 2, 3, 4, 5] []).1⟩

theorem BufferStage.drain_some (r : Ring) :
    BufferStage.drain (some r) = r.view.filterMap id := by
  simp [BufferStage.drain, ringDo_emit_some]

theorem BufferStage.drain_none : BufferStage.drain none = [] := rfl

/-- In its loop the goroutine sends only at a tick, and then the drain of its
ring; the ring field changes only at a reception. -/
theorem BufferStage.step_running (st : BufState) (c : Select)
    (h : st.status = Status.running) :
    (BufferStage.step st c).output
      = st.output ++ (if c = Select.tick then BufferStage.drain st.buffer else []) ∧
    (c = Select.tick → BufferStage.step st c = { st with
      output := st.output ++ BufferStage.drain st.buffer }) := by
  obtain ⟨buffer, input, output, status⟩ := st
  simp only at h
  subst h
  cases c with
  | recv =>
    cases input with
    | nil => simp [BufferStage.step]
    | cons num rest =>
      cases buffer with
      | none => simp [BufferStage.step]
      | some r => simp [BufferStage.step]
  | tick =>
    cases buffer with
    | none => simp [BufferStage.step_tick_none, BufferStage.drain_none]
    | some r => simp [BufferStage.step_tick_some, BufferStage.drain_some]

/-- Once the goroutine has left its loop nothing changes any more. -/
theorem BufferStage.loop_of_not_running (sched : List Select) (st : BufState)
    (h : st.status ≠ Status.running) : BufferStage.loop st sched = st := by
  induction sched with
  | nil => rfl
  | cons c cs ih =>
    have hstep : BufferStage.step st c = st := by
      obtain ⟨buffer, input, output, status⟩ := st
      cases status <;> simp_all [BufferStage.step]
    rw [BufferStage.loop, hstep, ih]

/-- The output of a run in which the goroutine is in its loop before every
step is what was sent before, followed by the drains at the ticks. -/
theorem BufferStage.loop_output (sched : List Select) :
    ∀ st : BufState,
      (∀ i, i < sched.length → (BufferStage.loop st (sched.take i)).status = Status.running) →
      (BufferStage.loop st sched).output
        = st.output ++ (tickPositions sched).flatMap
            (fun i => BufferStage.drain (BufferStage.loop st (sched.take i)).buffer) := by
  induction sched with
  | nil => intro st _; simp [tickPositions, BufferStage.loop]
  | cons c cs ih =>
    intro st h
    have h0 : st.status = Status.running := h 0 (by simp)
    have hrest : ∀ i, i < cs.length →
        (BufferStage.loop (BufferStage.step st c) (cs.take i)).status = Status.running := by
      intro i hi
      have := h (i + 1) (by simpa using hi)
      simpa [BufferStage.loop] using this
    have hpos : tickPositions (c :: cs)
        = (if c = Select.tick then [0] else []) ++ (tickPositions cs).map Nat.succ := by
      unfold tickPositions
      rw [List.length_cons, List.range_succ_eq_map, List.filter_cons, List.filter_map]
      cases c <;> simp [Function.comp_def]
    rw [BufferStage.loop, ih _ hrest, (BufferStage.step_running st c h0).1, hpos,
      List.flatMap_append, List.flatMap_map, List.append_assoc]
    congr 1
    cases c <;> simp [BufferStage.loop]

/-- A run without ticks sends nothing. -/
theorem BufferStage.loop_no_tick (sched : List Select) :
    ∀ st : BufState, Select.tick ∉ sched → (BufferStage.loop st sched).output = st.output := by
  induction sched with
  | nil => intro st _; rfl
  | cons c cs ih =>
    intro st h
    have hc : c = Select.recv := by
      cases c with
      | recv => rfl
      | tick => simp at h
    have hcs : Select.tick ∉ cs := fun hmem => h (List.mem_cons_of_mem c hmem)
    have hstep : (BufferStage.step st c).output = st.output := by
      subst hc
      obtain ⟨buffer, input, output, status⟩ := st
      cases status <;> cases input <;> cases buffer <;> simp [BufferStage.step]
    rw [BufferStage.loop, ih _ hcs, hstep]

/-- C7: a drain copies out and clears nothing. A tick while the goroutine is
in its loop leaves the ring (the value of every node, and the designated node)
and the pending input as they were and sends the drain of the ring; so two
ticks in a row, with no arrival in between, send the same values twice. -/
theorem drain_is_copy_out (st : BufState) (h : st.status = Status.running) :
    (BufferStage.step st Select.tick).buffer = st.buffer ∧
    (BufferStage.step st Select.tick).input = st.input ∧
    (BufferStage.step st Select.tick).status = Status.running ∧
    (BufferStage.step st Select.tick).output = st.output ++ BufferStage.drain st.buffer ∧
    (BufferStage.loop st [Select.tick, Select.tick]).buffer = st.buffer ∧
    (BufferStage.loop st [Select.tick, Select.tick]).output
      = st.output ++ BufferStage.drain st.buffer ++ BufferStage.drain st.buffer := by
  have h1 := (BufferStage.step_running st Select.tick h).2 rfl
  have h2 := (BufferStage.step_running (BufferStage.step st Select.tick) Select.tick
    (by rw [h1]; exact h)).2 rfl
  refine ⟨?_, ?_, ?_, ?_, ?_, ?_⟩
  · rw [h1]
  · rw [h1]
  · rw [h1]; exact h
  · rw [h1]
  · rw [BufferStage.loop, BufferStage.loop, BufferStage.loop, h2, h1]
  · rw [BufferStage.loop, BufferStage.loop, BufferStage.loop, h2, h1]

theorem drain_is_copy_out_witness :
    sampleState.status = Status.running ∧
    (BufferStage.step sampleState Select.tick).output = [2, 3] ∧
    (BufferStage.loop sampleState [Select.tick, Select.tick]).buffer = sampleState.buffer ∧
    (BufferStage.loop sampleState [Select.tick, Select.tick]).output = [2, 3, 2, 3] :=
  ⟨rfl, (drain_is_copy_out sampleState rfl).2.2.2.1, (drain_is_copy_out sampleState rfl).2.2.2.2.1,
    (drain_is_copy_out sampleState rfl).2.2.2.2.2⟩

/-- C8: no final flush. Along a schedule before every step of which the
goroutine is in its loop (so it ends, at the latest, with the reception that
finds the input closed), the output is the concatenation of the drains made at
the ticks. The reception that finds the input closed makes the goroutine
return and sends nothing; after it nothing is sent; receptions not followed
by a tick add nothing to the output; without a tick the output is empty. -/
theorem no_final_flush (s : BufferStage) (sched : List Select) (input : List Int)
    (h : ∀ i, i < sched.length →
      (BufferStage.run s (sched.take i) input).status = Status.running) :
    BufferStage.Process s sched input
      = (tickPositions sched).flatMap
          (fun i => BufferStage.drain (BufferStage.run s (sched.take i) input).buffer) ∧
    (Select.tick ∉ sched → BufferStage.Process s sched input = []) ∧
    (∀ later : List Select, Select.tick ∉ later →
      BufferStage.Process s (sched ++ later) input = BufferStage.Process s sched input) ∧
    ((BufferStage.run s sched input).status = Status.running →
      (BufferStage.run s sched input).input = [] →
      (BufferStage.run s (sched ++ [Select.recv]) input).status = Status.returned ∧
      BufferStage.Process s (sched ++ [Select.recv]) input
        = BufferStage.Process s sched input) ∧
    ((BufferStage.run s sched input).status = Status.returned →
      ∀ later : List Select,
        BufferStage.Process s (sched ++ later) input = BufferStage.Process s sched input) := by
  refine ⟨?_, ?_, ?_, ?_, ?_⟩
  · have := BufferStage.loop_output sched ⟨s.buffer, input, [], Status.running⟩ h
    simpa [BufferStage.Process, BufferStage.run] using this
  · intro hno
    exact BufferStage.loop_no_tick sched ⟨s.buffer, input, [], Status.running⟩ hno
  · intro later hno
    simp only [BufferStage.Process, BufferStage.run, BufferStage.loop_append]
    exact BufferStage.loop_no_tick later _ hno
  · intro hrun hin
    simp only [BufferStage.Process, BufferStage.run, BufferStage.loop_append] at *
    generalize BufferStage.loop ⟨s.buffer, input, [], Status.running⟩ sched = st at hrun hin
    obtain ⟨buffer, rest, output, status⟩ := st
    simp only at hrun hin
    subst hrun hin
    simp [BufferStage.loop, BufferStage.step]
  · intro hret later
    simp only [BufferStage.Process, BufferStage.run, BufferStage.loop_append] at *
    rw [BufferStage.loop_of_not_running later _ (by rw [hret]; decide)]

theorem no_final_flush_witness :
    (∀ i, i < [Select.recv, Select.tick, Select.recv, Select.recv].length →
      (BufferStage.run (NewBufferStage 2)
        ([Select.recv, Select.tick, Select.recv, Select.recv].take i) [3, 6]).status
        = Status.running) ∧
    BufferStage.Process (NewBufferStage 2)
        [Select.recv, Select.tick, Select.recv, Select.recv] [3, 6] = [3] ∧
    (BufferStage.run (NewBufferStage 2)
        [Select.recv, Select.tick, Select.recv, Select.recv] [3, 6]).status
      = Status.returned :=
  ⟨by decide,
   (no_final_flush (NewBufferStage 2) [Select.recv, Select.tick, Select.recv, Select.recv]
      [3, 6] (by decide)).1.trans (by decide),
   by decide⟩

/-- C10, as stated, fails: capacity 2 and the arrivals `1, 2, 3` leave
`3` in slot 0, `2` in slot 1 and the pointer on slot 1; the tick sends
`2, 3`, not slot 0 first. -/
theorem drain_not_from_slot_zero :
    (∃ r : Ring,
      (BufferStage.run (NewBufferStage 2)
        [Select.recv, Select.recv, Select.recv, Select.tick] [1, 2, 3]).buffer = some r ∧
      r.slots = [some 3, some 2] ∧ r.cur = 1 ∧
      BufferStage.Process (NewBufferStage 2)
        [Select.recv, Select.recv, Select.recv, Select.tick] [1, 2, 3] = [2, 3] ∧
      BufferStage.Process (NewBufferStage 2)
        [Select.recv, Select.recv, Select.recv, Select.tick] [1, 2, 3]
        ≠ r.slots.filterMap id) ∧
    ¬ (∀ (n : Nat) (vs : List Int) (r : Ring), 1 ≤ n →
        (BufferStage.run (NewBufferStage (n : Int))
          (List.replicate vs.length Select.recv ++ [Select.tick]) vs).buffer = some r →
        BufferStage.Process (NewBufferStage (n : Int))
          (List.replicate vs.length Select.recv ++ [Select.tick]) vs
          = r.slots.filterMap id) := by
  constructor
  · exact ⟨⟨[some 3, some 2], 1, by decide⟩, rfl, rfl, rfl, rfl, by decide⟩
  · intro hall
    have := hall 2 [1, 2, 3] ⟨[some 3, some 2], 1, by decide⟩ (by decide) rfl
    revert this
    decide

/-- C10, amended: a tick while the goroutine is in its loop walks all the
slots of the ring in ring order starting at the slot the pointer designates
(the slot the next arrival will overwrite), slots `cur, ..., n - 1` and then
`0, ..., cur - 1`, and sends the value of every occupied one; this is the
order slot 0, slot 1, ... when the pointer is on slot 0. -/
theorem drain_from_cursor (r : Ring) (input output : List Int) :
    BufferStage.step ⟨some r, input, output, Status.running⟩ Select.tick
      = ⟨some r, input,
          output ++ (r.slots.drop r.cur ++ r.slots.take r.cur).filterMap id,
          Status.running⟩ ∧
    (r.cur = 0 →
      BufferStage.step ⟨some r, input, output, Status.running⟩ Select.tick
        = ⟨some r, input, output ++ r.slots.filterMap id, Status.running⟩) := by
  have h := BufferStage.step_tick_some r input output
  refine ⟨h, ?_⟩
  intro h0
  rw [h, Ring.view, h0]
  simp

/-- The two filters in a row keep the positive multiples of 3. -/
theorem filters_compose (input : List Int) :
    SpecialFilterStage.Process (NegativeFilterStage.Process input)
      = input.filter (fun v => decide (v > 0 ∧ v % 3 = 0)) := by
  rw [SpecialFilterStage.specProcess_eq, NegativeFilterStage.negProcess_eq, List.filter_filter]
  apply List.filter_congr
  intro v _
  have h : (v ≠ 0 ∧ Int.tmod v 3 = 0) ∧ v ≥ 0 ↔ v > 0 ∧ v % 3 = 0 := by
    rw [tmod_three_eq_zero_iff]
    omega
  rw [← Bool.decide_and]
  exact decide_eq_decide.mpr h

/-- A fresh buffer whose capacity `size` is at least the number of values of
`vs`: after the arrivals `vs` one tick sends `vs`, and the reception that then
finds the input closed adds nothing and makes the goroutine return. -/
theorem BufferStage.process_all_fit (size : Int) (vs : List Int)
    (hfit : (vs.length : Int) ≤ size) :
    BufferStage.Process (NewBufferStage size)
        (List.replicate vs.length Select.recv ++ [Select.tick]) vs = vs ∧
    BufferStage.Process (NewBufferStage size)
        (List.replicate vs.length Select.recv ++ [Select.tick, Select.recv]) vs = vs ∧
    (BufferStage.run (NewBufferStage size)
        (List.replicate vs.length Select.recv ++ [Select.tick, Select.recv]) vs).status
      = Status.returned := by
  have hsplit : List.replicate vs.length Select.recv ++ [Select.tick, Select.recv]
      = (List.replicate vs.length Select.recv ++ [Select.tick]) ++ [Select.recv] := by simp
  by_cases hsize : size ≤ 0
  · have hnil : vs = [] := List.eq_nil_of_length_eq_zero (by omega)
    subst hnil
    simp [BufferStage.Process, BufferStage.run, NewBufferStage, Ring.New_nonpos size hsize,
      BufferStage.loop, BufferStage.step, ringDo]
  · have hn : 1 ≤ size.toNat := by omega
    have hcast : ((size.toNat : Nat) : Int) = size := by omega
    obtain ⟨r, hrun, -, -⟩ := BufferStage.run_arrivals_then_tick size.toNat hn vs []
    rw [hcast, List.append_nil] at hrun
    have hdrop : vs.drop (vs.length - size.toNat) = vs := by
      have : vs.length - size.toNat = 0 := by omega
      rw [this, List.drop_zero]
    rw [hdrop] at hrun
    have hrun2 : BufferStage.run (NewBufferStage size)
        (List.replicate vs.length Select.recv ++ [Select.tick, Select.recv]) vs
          = ⟨some r, [], vs, Status.returned⟩ := by
      rw [hsplit]
      unfold BufferStage.run at hrun ⊢
      rw [BufferStage.loop_append, hrun]
      rfl
    refine ⟨?_, ?_, ?_⟩
    · rw [BufferStage.Process, hrun]
    · rw [BufferStage.Process, hrun2]
    · rw [hrun2]

/-- A fresh buffer whose capacity `size` is at least the number of values of
`vs`, after the arrivals `vs` and before any tick: nothing has been sent, the
goroutine is in its loop with no input pending, and the ring holds `vs`, which
is what a tick would drain. -/
theorem BufferStage.arrivals_all_fit (size : Int) (vs : List Int)
    (hfit : (vs.length : Int) ≤ size) :
    (BufferStage.run (NewBufferStage size)
        (List.replicate vs.length Select.recv) vs).output = [] ∧
    (BufferStage.run (NewBufferStage size)
        (List.replicate vs.length Select.recv) vs).status = Status.running ∧
    (BufferStage.run (NewBufferStage size)
        (List.replicate vs.length Select.recv) vs).input = [] ∧
    BufferStage.drain (BufferStage.run (NewBufferStage size)
        (List.replicate vs.length Select.recv) vs).buffer = vs := by
  by_cases hsize : size ≤ 0
  · have hnil : vs = [] := List.eq_nil_of_length_eq_zero (by omega)
    subst hnil
    simp [BufferStage.run, NewBufferStage, Ring.New_nonpos size hsize, BufferStage.loop,
      BufferStage.drain_none]
  · have hn : 1 ≤ size.toNat := by omega
    have hcast : ((size.toNat : Nat) : Int) = size := by omega
    obtain ⟨r0, hnew, hslots, hcur⟩ := Ring.New_pos size.toNat hn
    rw [hcast] at hnew
    have hview0 : r0.view = List.replicate size.toNat none := by
      simp [Ring.view, hslots, hcur]
    have hzero : vs.length - size.toNat = 0 := by omega
    have hview : (vs.foldl Ring.push r0).view.filterMap id = vs := by
      rw [Ring.view_foldl_push, hview0, filterMap_drop_pad, hzero, List.drop_zero]
    have hrun : BufferStage.run (NewBufferStage size)
        (List.replicate vs.length Select.recv) vs
          = ⟨some (vs.foldl Ring.push r0), [], [], Status.running⟩ := by
      have h := BufferStage.loop_recv vs r0 [] []
      rw [List.append_nil] at h
      rw [BufferStage.run, NewBufferStage, hnew, h]
    rw [hrun]
    exact ⟨rfl, rfl, rfl, by rw [BufferStage.drain_some, hview]⟩

/-- C6: end to end. The negative filter, the special filter and a fresh buffer
of capacity `size` in a chain, the survivors of the two filters being at most
`size` and all arriving at the buffer before its first tick: that tick sends
exactly the input values `v > 0` with `v mod 3 = 0`, in input order, and the
closing of the input after it adds nothing. It is the tick that sends them:
the same run without the tick sends nothing, the buffering goroutine then
being in its loop with the survivors held in its ring. For the input
`5, -3, 9, 0, 12` and capacity 3 the tick sends `9` and then `12`, and nothing
is sent before it; with capacity 1, too small for the two survivors, the tick
sends `12` alone. -/
theorem end_to_end (input : List Int) (size : Int)
    (hfit : ((input.filter (fun v => decide (v > 0 ∧ v % 3 = 0))).length : Int) ≤ size) :
    chainStages (stages size
        (List.replicate (input.filter (fun v => decide (v > 0 ∧ v % 3 = 0))).length Select.recv
          ++ [Select.tick])) input
      = input.filter (fun v => decide (v > 0 ∧ v % 3 = 0)) ∧
    chainStages (stages size
        (List.replicate (input.filter (fun v => decide (v > 0 ∧ v % 3 = 0))).length Select.recv
          ++ [Select.tick, Select.recv])) input
      = input.filter (fun v => decide (v > 0 ∧ v % 3 = 0)) ∧
    chainStages (stages 3 [Select.recv, Select.recv, Select.tick]) [5, -3, 9, 0, 12]
      = [9, 12] ∧
    chainStages (stages size
        (List.replicate (input.filter (fun v => decide (v > 0 ∧ v % 3 = 0))).length
          Select.recv)) input
      = [] ∧
    (BufferStage.run (NewBufferStage size)
        (List.replicate (input.filter (fun v => decide (v > 0 ∧ v % 3 = 0))).length Select.recv)
        (SpecialFilterStage.Process (NegativeFilterStage.Process input))).status
      = Status.running ∧
    BufferStage.drain (BufferStage.run (NewBufferStage size)
        (List.replicate (input.filter (fun v => decide (v > 0 ∧ v % 3 = 0))).length Select.recv)
        (SpecialFilterStage.Process (NegativeFilterStage.Process input))).buffer
      = input.filter (fun v => decide (v > 0 ∧ v % 3 = 0)) ∧
    chainStages (stages 3 [Select.recv, Select.recv]) [5, -3, 9, 0, 12] = [] ∧
    chainStages (stages 1 [Select.recv, Select.recv, Select.tick]) [5, -3, 9, 0, 12]
      = [12] := by
  have h := BufferStage.process_all_fit size _ hfit
  have ha := BufferStage.arrivals_all_fit size _ hfit
  refine ⟨?_, ?_, by decide, ?_, ?_, ?_, by decide, by decide⟩
  · simp only [chainStages, stages, filters_compose]
    exact h.1
  · simp only [chainStages, stages, filters_compose]
    exact h.2.1
  · simp only [chainStages, stages, filters_compose]
    exact ha.1
  · rw [filters_compose]
    exact ha.2.1
  · rw [filters_compose]
    exact ha.2.2.2

theorem end_to_end_witness :
    (([5, -3, 9, 0, 12].filter (fun v => decide (v > 0 ∧ v % 3 = 0))).length : Int) ≤ 3 ∧
    chainStages (stages 3
        (List.replicate
          ([5, -3, 9, 0, 12].filter (fun v => decide (v > 0 ∧ v % 3 = 0))).length Select.recv
          ++ [Select.tick])) [5, -3, 9, 0, 12]
      = [5, -3, 9, 0, 12].filter (fun v => decide (v > 0 ∧ v % 3 = 0)) ∧
    chainStages (stages 3
        (List.replicate
          ([5, -3, 9, 0, 12].filter (fun v => decide (v > 0 ∧ v % 3 = 0))).length Select.recv))
        [5, -3, 9, 0, 12]
      = [] :=
  ⟨by decide, (end_to_end [5, -3, 9, 0, 12] 3 (by decide)).1,
    (end_to_end [5, -3, 9, 0, 12] 3 (by decide)).2.2.2.1⟩

end Pipe
